import Mathlib

/-!
Verification of `src/NeutOsc.h` (namespace `neutosc`): a three-flavor
neutrino oscillation engine.  The C++ code is embedded shallowly over the
exact real/complex numbers: `double` becomes `ℝ`, `std::complex<double>`
becomes `ℂ`, `Eigen::Matrix3cd` becomes `Matrix (Fin 3) (Fin 3) ℂ`, and
`Eigen::Vector3cd` becomes `Fin 3 → ℂ`.  Eigen's fixed-size complex
matrices default-construct every coefficient through the default
constructor of `std::complex<double>`, which value-initializes both parts
to zero; hence the freshly constructed `Oscillator` holds all-zero
matrices before its constructor runs `update()`.
-/

namespace NeutOsc

open scoped Matrix ComplexConjugate

abbrev Mat3 := Matrix (Fin 3) (Fin 3) ℂ

abbrev Vec3 := Fin 3 → ℂ

/-- The oscillation parameter struct `neutosc::OscPars`, with the
default member initializers of the C++ struct.  The C++ field `nu` is an
`int` used only as an index into 3-vectors; it is embedded as `Fin 3`. -/
structure OscPars where
  nu : Fin 3 := 0
  anti : Bool := false
  E : ℝ := 0.7
  L : ℝ := 33060.7 * 0.7
  th12 : ℝ := 0.5843
  th23 : ℝ := 0.738
  th13 : ℝ := 0.148
  Dm21sq : ℝ := 7.5e-5
  Dm31sq : ℝ := 2.457e-3
  dCP : ℝ := 1.38 * 3.14159265
  rho : ℝ := 0

/-- Chirality factor `(int)op.anti * -2 + 1`: `1` for a neutrino,
`-1` for an antineutrino. -/
def chir (b : Bool) : ℝ := if b then -1 else 1

/-- Unit-conversion constant `conv` appearing in the propagation
routines of `NeutOsc.h`. -/
def conv : ℝ := 2.534

/-- Reduced Fermi constant `Gf` from `Oscillator::update`. -/
def Gf : ℝ := 4.54164e-37

/-- Electron number density `Ne = op.rho/(1.672e-27)/2` from
`Oscillator::update`. -/
noncomputable def Ne (p : OscPars) : ℝ := p.rho / 1.672e-27 / 2

/-- The value written to `V(0,0)` by `Oscillator::update`:
`ch*sqrt(2)*Gf*Ne * 1e3`. -/
noncomputable def Vval (p : OscPars) : ℝ :=
  chir p.anti * Real.sqrt 2 * Gf * Ne p * 1e3

/-- First rotation factor `U1` of the mixing matrix. -/
noncomputable def U1 (p : OscPars) : Mat3 :=
  !![1, 0, 0;
     0, (Real.cos p.th23 : ℂ), (Real.sin p.th23 : ℂ);
     0, -(Real.sin p.th23 : ℂ), (Real.cos p.th23 : ℂ)]

/-- Second rotation factor `U2` of the mixing matrix, carrying the
CP phase with the chirality sign. -/
noncomputable def U2 (p : OscPars) : Mat3 :=
  !![(Real.cos p.th13 : ℂ), 0,
       (Real.sin p.th13 : ℂ) * Complex.exp (-Complex.I * (chir p.anti : ℂ) * (p.dCP : ℂ));
     0, 1, 0;
     -(Real.sin p.th13 : ℂ) * Complex.exp (Complex.I * (chir p.anti : ℂ) * (p.dCP : ℂ)), 0,
       (Real.cos p.th13 : ℂ)]

/-- Third rotation factor `U3` of the mixing matrix. -/
noncomputable def U3 (p : OscPars) : Mat3 :=
  !![(Real.cos p.th12 : ℂ), (Real.sin p.th12 : ℂ), 0;
     -(Real.sin p.th12 : ℂ), (Real.cos p.th12 : ℂ), 0;
     0, 0, 1]

/-- The mixing matrix `U = U1*U2*U3` built by `Oscillator::update`. -/
noncomputable def Umat (p : OscPars) : Mat3 := U1 p * U2 p * U3 p

/-- The mass-basis Hamiltonian `H` built by `Oscillator::update`. -/
noncomputable def Hmat (p : OscPars) : Mat3 :=
  !![0, 0, 0;
     0, (p.Dm21sq : ℂ), 0;
     0, 0, (p.Dm31sq : ℂ)]

/-- State of a `neutosc::Oscillator` object: the parameter struct `op`
and the matrix members written by `update()`.  The members `Hexp`,
`Vexp` and `Dmsq` of the C++ class are never read (the propagation
routines shadow `Hexp`/`Vexp` with locals), so they are omitted. -/
structure Osc where
  op : OscPars
  U : Mat3
  Ud : Mat3
  H : Mat3
  V : Mat3

/-- `Oscillator::update()`: recompute `U`, `Ud` and `H` from the current
parameters and overwrite the single entry `V(0,0)`; all other entries of
`V` are left as they were. -/
noncomputable def update (o : Osc) : Osc :=
  { op := o.op
    U := Umat o.op
    Ud := (Umat o.op)ᴴ
    H := Hmat o.op
    V := Matrix.of fun i j => if i = 0 ∧ j = 0 then (Vval o.op : ℂ) else o.V i j }

/-- The `Oscillator()` constructor: all matrix members start at zero
(value-initialized `std::complex` coefficients) and `update()` runs on
the default parameter struct. -/
noncomputable def ctor : Osc :=
  update { op := {}, U := 0, Ud := 0, H := 0, V := 0 }

/-- States of an `Oscillator` reachable right after a call to
`update()`: the constructor state, and any state obtained from a
reachable one by editing the parameter struct through `pars()` and
calling `update()` again. -/
inductive Reach : Osc → Prop
  | init : Reach ctor
  | step (o : Osc) (p : OscPars) : Reach o → Reach (update { o with op := p })

/-- The initial flavor vector `nu`: zero except for a `1` at index `f`. -/
def flavorVec (f : Fin 3) : Vec3 := fun k => if k = f then 1 else 0

/-- `Oscillator::transvac()`: build `-If*H/op.E*conv*op.L` entrywise,
exponentiate its diagonal entries in place, and return the squared
magnitudes of `U*Hexp*Ud*nu`. -/
noncomputable def Osc.transvac (o : Osc) : Fin 3 → ℝ :=
  let nu := flavorVec o.op.nu
  let Hs : Mat3 := Matrix.of fun i j => -Complex.I * o.H i j / (o.op.E : ℂ) * (conv : ℂ) * (o.op.L : ℂ)
  let Hexp : Mat3 := Matrix.of fun i j => if i = j then Complex.exp (Hs i j) else Hs i j
  fun k => Complex.normSq ((o.U * Hexp * o.Ud).mulVec nu k)

/-- `Oscillator::transmat()`: per-segment propagators with `N = 128`
segments, combined operator `A = Hexp*Ud*Vexp*U`, and squared magnitudes
of `U*A^N*Ud*nu`.  (`Eigen::MatrixPower` at the integer exponent `N`
computes the exact `N`-th matrix power.) -/
noncomputable def Osc.transmat (o : Osc) : Fin 3 → ℝ :=
  let nu := flavorVec o.op.nu
  let N : ℕ := 128
  let Hs : Mat3 := Matrix.of fun i j =>
    -Complex.I * o.H i j / (o.op.E : ℂ) * (conv : ℂ) * (o.op.L : ℂ) / (N : ℂ)
  let Hexp : Mat3 := Matrix.of fun i j => if i = j then Complex.exp (Hs i j) else Hs i j
  let Vs : Mat3 := Matrix.of fun i j => -Complex.I * o.V i j * (o.op.L : ℂ) / (N : ℂ)
  let Vexp : Mat3 := Matrix.of fun i j => if i = j then Complex.exp (Vs i j) else Vs i j
  let A : Mat3 := Hexp * o.Ud * Vexp * o.U
  fun k => Complex.normSq ((o.U * A ^ N * o.Ud).mulVec nu k)

/-- `Oscillator::trans()`: dispatch on `op.rho == 0` between the vacuum
and the matter algorithm. -/
noncomputable def Osc.trans (o : Osc) : Fin 3 → ℝ :=
  if o.op.rho = 0 then o.transvac else o.transmat

/-- Lists `[a, f a, f (f a), ...]` of the given length. -/
def iterList {α : Type} (f : α → α) (a : α) : ℕ → List α
  | 0 => []
  | n + 1 => a :: iterList f (f a) n

/-- Number of iterations of the loop `for(double l = 0; l < L; l += step)`
over exact reals: the iterates are `l = k*step`, so for `step > 0` the
loop body runs `⌈L/step⌉₊` times (zero times when `L ≤ 0`).  For
`step ≤ 0` and `L > 0` the C++ loop never terminates; the model then
returns only the samples produced before the loop, which is the part the
specification's claims speak about. -/
noncomputable def numSteps (L step : ℝ) : ℕ :=
  if 0 < step then ⌈L / step⌉₊ else 0

/-- `Oscillator::numtrans(nu1, E, L, step)`: transform the initial
flavor vector to the mass basis with `Ud`, record `(U*nu).cwiseAbs2()`,
then repeat the Euler update `nu += -If*H*conv*step/E*nu` recording a
sample after each step. -/
noncomputable def Osc.numtrans (o : Osc) (nu1 : Fin 3) (E L step : ℝ) :
    List (Fin 3 → ℝ) :=
  let nu0 := o.Ud.mulVec (flavorVec nu1)
  let euler : Vec3 → Vec3 := fun v =>
    v + (Matrix.of fun i j => -Complex.I * o.H i j * (conv : ℂ) * (step : ℂ) / (E : ℂ)).mulVec v
  (iterList euler nu0 (numSteps L step + 1)).map
    (fun v k => Complex.normSq (o.U.mulVec v k))

/-- The swept scalar parameter handed to `oscillate` as `double& par`:
per the driver contract it aliases the engine's energy or baseline
field. -/
inductive Param
  | energy
  | baseline

/-- Read the swept field from the parameter struct. -/
def Param.get : Param → OscPars → ℝ
  | .energy => fun q => q.E
  | .baseline => fun q => q.L

/-- Overwrite the swept field in the parameter struct. -/
def Param.set : Param → ℝ → OscPars → OscPars
  | .energy => fun v q => { q with E := v }
  | .baseline => fun v q => { q with L := v }

/-- The loop of `oscillate`: for the remaining `count` indices starting
at `i`, set the swept field to `i*step`, call `update()`, record
`trans()`, and return the collected samples with the final engine
state. -/
noncomputable def oscillateAux (p : Param) (step : ℝ) (s : Osc) (i : ℕ) :
    ℕ → List (Fin 3 → ℝ) × Osc
  | 0 => ([], s)
  | count + 1 =>
    let s' := update { s with op := p.set ((i : ℝ) * step) s.op }
    let rest := oscillateAux p step s' (i + 1) count
    (s'.trans :: rest.1, rest.2)

/-- `neutosc::oscillate(osc, par, numsteps)`: sweep the aliased
parameter over `i*(initial/numsteps)` for `i` in `[0, numsteps)`,
collecting `osc.trans()` after each `osc.update()`, then restore the
parameter to its initial value (without a further `update()`). -/
noncomputable def oscillate (o : Osc) (p : Param) (n : ℕ) :
    List (Fin 3 → ℝ) × Osc :=
  let initial := p.get o.op
  let step := initial / (n : ℝ)
  let r := oscillateAux p step o 0 n
  (r.1, { r.2 with op := p.set initial r.2.op })

/-- One line of the csv file written by `neutosc::exportData`: the
header, or a data row holding the four written numbers. -/
inductive Row
  | header
  | data (x p0 p1 p2 : ℝ)

/-- `neutosc::exportData(probs, final)`: the sequence of lines written
to the output file on the successful-open path — the header line
`x,e,mu,tau`, then for each index `i` the row with
`x = i*(final/probs.size())` and the three components of `probs[i]`. -/
noncomputable def exportData (probs : List (Fin 3 → ℝ)) (final : ℝ) : List Row :=
  Row.header ::
    probs.enum.map (fun ip =>
      Row.data ((ip.1 : ℝ) * (final / (probs.length : ℝ))) (ip.2 0) (ip.2 1) (ip.2 2))

/-- The `x` column of a written file: the first field of each data row,
in order (the header carries no number). -/
def xColumn (rows : List Row) : List ℝ :=
  rows.filterMap (fun r =>
    match r with
    | Row.header => none
    | Row.data x _ _ _ => some x)

/-- Modelled from the spec: the diagonal of the stored Hamiltonian as the
claim words it, `H₀₀ = 0`, `H₁₁ = Δm²₂₁`, `H₂₂ = Δm²₃₁`. -/
def HdiagSpec (p : OscPars) : Fin 3 → ℝ := ![0, p.Dm21sq, p.Dm31sq]

/-- Modelled from the spec: the diagonal of the stored matter generator,
nonzero only at the electron entry. -/
noncomputable def VdiagSpec (p : OscPars) : Fin 3 → ℝ := ![Vval p, 0, 0]

/-- Modelled from the spec: the vacuum-probability formula of claim C1 —
component-wise squared magnitude of `U · D · U† · e_f` with `D` the
diagonal matrix of entries `exp(−i · H_kk · 2.534 · baseline / energy)`. -/
noncomputable def transvacSpec (p : OscPars) : Fin 3 → ℝ := fun k =>
  Complex.normSq
    ((Umat p *
        Matrix.diagonal (fun j =>
          Complex.exp (-Complex.I * (HdiagSpec p j : ℂ) * 2.534 * (p.L : ℂ) / (p.E : ℂ))) *
        (Umat p)ᴴ).mulVec (flavorVec p.nu) k)

/-- Modelled from the spec: the matter-probability formula of claim C2 —
component-wise squared magnitude of `U · A^128 · U† · e_f` with
`A = Hexp · U† · Vexp · U`, `Hexp` diagonal with entries
`exp(−i · H_kk · 2.534 · (baseline/128) / energy)` and `Vexp` diagonal
with entries `exp(−i · V_kk · (baseline/128))`. -/
noncomputable def transmatSpec (p : OscPars) : Fin 3 → ℝ := fun k =>
  Complex.normSq
    ((Umat p *
        (Matrix.diagonal (fun j =>
            Complex.exp (-Complex.I * (HdiagSpec p j : ℂ) * 2.534 * ((p.L : ℂ) / 128) / (p.E : ℂ))) *
          (Umat p)ᴴ *
          Matrix.diagonal (fun j =>
            Complex.exp (-Complex.I * (VdiagSpec p j : ℂ) * ((p.L : ℂ) / 128))) *
          Umat p) ^ 128 *
        (Umat p)ᴴ).mulVec (flavorVec p.nu) k)

/-- The parameter sets of two engines agree on every field except the
matter density `rho`. -/
def agreeExceptRho (p q : OscPars) : Prop :=
  p.nu = q.nu ∧ p.anti = q.anti ∧ p.E = q.E ∧ p.L = q.L ∧
  p.th12 = q.th12 ∧ p.th23 = q.th23 ∧ p.th13 = q.th13 ∧
  p.Dm21sq = q.Dm21sq ∧ p.Dm31sq = q.Dm31sq ∧ p.dCP = q.dCP

/-- The canonical engine state determined by a parameter set: what
`update()` produces from zeroed matrices. -/
noncomputable def canon (p : OscPars) : Osc :=
  update { op := p, U := 0, Ud := 0, H := 0, V := 0 }

/-- The diagonal vacuum propagator that `transvac` builds in place. -/
noncomputable def Dvac (p : OscPars) : Mat3 :=
  Matrix.diagonal fun j =>
    Complex.exp (-Complex.I * Hmat p j j / (p.E : ℂ) * (conv : ℂ) * (p.L : ℂ))

/-- Every reachable engine state is the canonical state of its current
parameter set: `update()` fully determines `U`, `Ud`, `H`, and the
entries of `V` other than `(0,0)` stay zero from construction on. -/
theorem reach_canon {o : Osc} (h : Reach o) : o = canon o.op := by
  induction h with
  | init => rfl
  | step o p _ ih =>
    rw [ih]
    simp only [canon, update, Osc.mk.injEq, true_and]
    ext i j
    simp only [Matrix.of_apply]
    by_cases hij : i = 0 ∧ j = 0
    · simp [hij]
    · simp [hij, Matrix.zero_apply]

/-- Conjugation fixes the complex cosine of a real argument. -/
theorem conj_cos_real (t : ℝ) :
    (starRingEnd ℂ) (Complex.cos (t : ℂ)) = Complex.cos (t : ℂ) := by
  rw [← Complex.cos_conj, Complex.conj_ofReal]

/-- Conjugation fixes the complex sine of a real argument. -/
theorem conj_sin_real (t : ℝ) :
    (starRingEnd ℂ) (Complex.sin (t : ℂ)) = Complex.sin (t : ℂ) := by
  rw [← Complex.sin_conj, Complex.conj_ofReal]

/-- Conjugation flips the sign in a pure phase `exp(−i·c·d)` with real
`c`, `d`. -/
theorem conj_exp_phase_neg (c d : ℝ) :
    (starRingEnd ℂ) (Complex.exp (-(Complex.I * (c : ℂ) * (d : ℂ)))) =
      Complex.exp (Complex.I * (c : ℂ) * (d : ℂ)) := by
  rw [← Complex.exp_conj]
  congr 1
  rw [RingHom.map_neg, RingHom.map_mul, RingHom.map_mul, Complex.conj_I,
    Complex.conj_ofReal, Complex.conj_ofReal]
  ring

/-- Conjugation flips the sign in a pure phase `exp(i·c·d)` with real
`c`, `d`. -/
theorem conj_exp_phase_pos (c d : ℝ) :
    (starRingEnd ℂ) (Complex.exp (Complex.I * (c : ℂ) * (d : ℂ))) =
      Complex.exp (-(Complex.I * (c : ℂ) * (d : ℂ))) := by
  rw [← Complex.exp_conj]
  congr 1
  rw [RingHom.map_mul, RingHom.map_mul, Complex.conj_I,
    Complex.conj_ofReal, Complex.conj_ofReal]
  ring

/-- Opposite pure phases multiply to one. -/
theorem exp_phase_mul_exp_phase (c d : ℝ) :
    Complex.exp (-(Complex.I * (c : ℂ) * (d : ℂ))) *
      Complex.exp (Complex.I * (c : ℂ) * (d : ℂ)) = 1 := by
  rw [← Complex.exp_add, neg_add_cancel, Complex.exp_zero]

/-- The atmospheric rotation factor is unitary. -/
theorem U1_unitary (p : OscPars) : U1 p * (U1 p)ᴴ = 1 := by
  have hC := Complex.sin_sq_add_cos_sq (p.th23 : ℂ)
  ext i j
  fin_cases i <;> fin_cases j <;>
    simp [U1, Matrix.mul_apply, Fin.sum_univ_three, Matrix.conjTranspose_apply,
      Matrix.one_apply, Complex.star_def, conj_cos_real, conj_sin_real] <;>
    first
      | ring1
      | linear_combination hC

/-- The solar rotation factor is unitary. -/
theorem U3_unitary (p : OscPars) : U3 p * (U3 p)ᴴ = 1 := by
  have hC := Complex.sin_sq_add_cos_sq (p.th12 : ℂ)
  ext i j
  fin_cases i <;> fin_cases j <;>
    simp [U3, Matrix.mul_apply, Fin.sum_univ_three, Matrix.conjTranspose_apply,
      Matrix.one_apply, Complex.star_def, conj_cos_real, conj_sin_real] <;>
    first
      | ring1
      | linear_combination hC

/-- The reactor rotation factor, carrying the CP phase, is unitary. -/
theorem U2_unitary (p : OscPars) : U2 p * (U2 p)ᴴ = 1 := by
  have hC := Complex.sin_sq_add_cos_sq (p.th13 : ℂ)
  have key := exp_phase_mul_exp_phase (chir p.anti) p.dCP
  ext i j
  fin_cases i <;> fin_cases j <;>
    simp [U2, Matrix.mul_apply, Fin.sum_univ_three, Matrix.conjTranspose_apply,
      Matrix.one_apply, Complex.star_def, conj_cos_real, conj_sin_real,
      conj_exp_phase_neg, conj_exp_phase_pos] <;>
    first
      | ring1
      | linear_combination hC
      | linear_combination hC + Complex.sin (p.th13 : ℂ) ^ 2 * key

/-- The full mixing matrix `U = U1*U2*U3` is unitary: `U * Uᴴ = 1`. -/
theorem Umat_mul_conjTranspose (p : OscPars) : Umat p * (Umat p)ᴴ = 1 := by
  have h1 := U1_unitary p
  have h2 := U2_unitary p
  have h3 := U3_unitary p
  unfold Umat
  rw [Matrix.conjTranspose_mul, Matrix.conjTranspose_mul,
    Matrix.mul_assoc (U1 p * U2 p) (U3 p), ← Matrix.mul_assoc (U3 p) ((U3 p)ᴴ),
    h3, Matrix.one_mul, Matrix.mul_assoc (U1 p) (U2 p), ← Matrix.mul_assoc (U2 p) ((U2 p)ᴴ),
    h2, Matrix.one_mul, h1]

/-- The full mixing matrix also satisfies `Uᴴ * U = 1`. -/
theorem Umat_conjTranspose_mul (p : OscPars) : (Umat p)ᴴ * Umat p = 1 :=
  Matrix.mul_eq_one_comm.mp (Umat_mul_conjTranspose p)

/-- A matrix with `Mᴴ * M = 1` preserves the sum of squared magnitudes
of a vector's components. -/
theorem sum_normSq_mulVec (M : Mat3) (h : Mᴴ * M = 1) (v : Vec3) :
    ∑ k, Complex.normSq (M.mulVec v k) = ∑ k, Complex.normSq (v k) := by
  have e : ∀ u : Vec3, star u ⬝ᵥ u = ((∑ k, Complex.normSq (u k) : ℝ) : ℂ) := by
    intro u
    simp only [Matrix.dotProduct, Pi.star_apply, Complex.star_def, Complex.ofReal_sum]
    refine Finset.sum_congr rfl fun k _ => ?_
    rw [mul_comm, Complex.mul_conj]
  have key : star (M.mulVec v) ⬝ᵥ M.mulVec v = star v ⬝ᵥ v := by
    rw [Matrix.star_mulVec, ← Matrix.dotProduct_mulVec, Matrix.mulVec_mulVec, h,
      Matrix.one_mulVec]
  rw [e, e] at key
  exact_mod_cast key

/-- The squared magnitudes of a flavor unit vector sum to one. -/
theorem sum_normSq_flavorVec (f : Fin 3) : ∑ k, Complex.normSq (flavorVec f k) = 1 := by
  fin_cases f <;> simp [flavorVec, Fin.sum_univ_three]

/-- The entries of the stored Hamiltonian off the diagonal are zero. -/
theorem Hmat_offdiag (p : OscPars) {i j : Fin 3} (h : i ≠ j) : Hmat p i j = 0 := by
  fin_cases i <;> fin_cases j <;>
    first
      | exact absurd rfl h
      | simp [Hmat, Matrix.vecHead, Matrix.vecTail]

/-- The diagonal entries of the stored Hamiltonian are the real values
`0`, `Δm²₂₁`, `Δm²₃₁`. -/
theorem Hmat_diag (p : OscPars) (j : Fin 3) : Hmat p j j = ((HdiagSpec p j : ℝ) : ℂ) := by
  fin_cases j <;> simp [Hmat, HdiagSpec]

/-- The matrix that `transvac` exponentiates entrywise on the diagonal
equals the diagonal vacuum propagator. -/
theorem transvac_prop_eq (p : OscPars) :
    (Matrix.of fun i j =>
        if i = j then
          Complex.exp (-Complex.I * Hmat p i j / (p.E : ℂ) * (conv : ℂ) * (p.L : ℂ))
        else -Complex.I * Hmat p i j / (p.E : ℂ) * (conv : ℂ) * (p.L : ℂ)) = Dvac p := by
  ext i j
  by_cases hij : i = j
  · subst hij
    simp [Dvac, Matrix.diagonal_apply_eq, Matrix.of_apply]
  · simp [Dvac, Matrix.of_apply, hij, Matrix.diagonal_apply_ne _ hij, Hmat_offdiag p hij]

/-- After an `update()`, `transvac` computes the squared magnitudes of
`U * Dvac * Uᴴ` applied to the initial flavor vector. -/
theorem transvac_update (o : Osc) : (update o).transvac = fun k =>
    Complex.normSq
      ((Umat o.op * Dvac o.op * (Umat o.op)ᴴ).mulVec (flavorVec o.op.nu) k) := by
  funext k
  show Complex.normSq
      ((Umat o.op *
          (Matrix.of fun i j =>
            if i = j then
              Complex.exp (-Complex.I * Hmat o.op i j / (o.op.E : ℂ) * (conv : ℂ) * (o.op.L : ℂ))
            else -Complex.I * Hmat o.op i j / (o.op.E : ℂ) * (conv : ℂ) * (o.op.L : ℂ)) *
          (Umat o.op)ᴴ).mulVec (flavorVec o.op.nu) k) = _
  rw [transvac_prop_eq]

/-- Each diagonal entry of the vacuum propagator has unit modulus. -/
theorem Dvac_entry_unit (p : OscPars) (j : Fin 3) :
    (starRingEnd ℂ)
        (Complex.exp (-Complex.I * Hmat p j j / (p.E : ℂ) * (conv : ℂ) * (p.L : ℂ))) *
      Complex.exp (-Complex.I * Hmat p j j / (p.E : ℂ) * (conv : ℂ) * (p.L : ℂ)) = 1 := by
  have hconj : (starRingEnd ℂ)
      (-Complex.I * Hmat p j j / (p.E : ℂ) * (conv : ℂ) * (p.L : ℂ)) =
      -(-Complex.I * Hmat p j j / (p.E : ℂ) * (conv : ℂ) * (p.L : ℂ)) := by
    rw [Hmat_diag]
    simp only [map_mul, map_div₀, map_neg, Complex.conj_I, Complex.conj_ofReal]
    ring
  rw [← Complex.exp_conj, hconj, ← Complex.exp_add, neg_add_cancel, Complex.exp_zero]

/-- The vacuum propagator is unitary. -/
theorem Dvac_unitary (p : OscPars) : (Dvac p)ᴴ * Dvac p = 1 := by
  rw [Dvac, Matrix.diagonal_conjTranspose, Matrix.diagonal_mul_diagonal]
  ext i j
  by_cases h : i = j
  · subst h
    rw [Matrix.diagonal_apply_eq, Matrix.one_apply_eq]
    exact Dvac_entry_unit p i
  · rw [Matrix.diagonal_apply_ne _ h, Matrix.one_apply_ne h]

/-- A unitary sandwich `U * D * Uᴴ` of a unitary `D` is unitary. -/
theorem sandwich_unitary (U D : Mat3) (hU : U * Uᴴ = 1) (hD : Dᴴ * D = 1) :
    (U * D * Uᴴ)ᴴ * (U * D * Uᴴ) = 1 := by
  have hU' : Uᴴ * U = 1 := Matrix.mul_eq_one_comm.mp hU
  rw [Matrix.conjTranspose_mul, Matrix.conjTranspose_mul, Matrix.conjTranspose_conjTranspose]
  calc U * (Dᴴ * Uᴴ) * (U * D * Uᴴ) = U * Dᴴ * (Uᴴ * U) * D * Uᴴ := by
        simp only [Matrix.mul_assoc]
    _ = U * (Dᴴ * D) * Uᴴ := by rw [hU', Matrix.mul_one]; simp only [Matrix.mul_assoc]
    _ = 1 := by rw [hD, Matrix.mul_one, hU]

/-- The current parameter struct of the canonical state. -/
theorem canon_op (p : OscPars) : (canon p).op = p := rfl

/-- The mixing matrix of the canonical state. -/
theorem canon_U (p : OscPars) : (canon p).U = Umat p := rfl

/-- The adjoint mixing matrix of the canonical state. -/
theorem canon_Ud (p : OscPars) : (canon p).Ud = (Umat p)ᴴ := rfl

/-- The Hamiltonian of the canonical state. -/
theorem canon_H (p : OscPars) : (canon p).H = Hmat p := rfl

/-- The matter generator of the canonical state: the single `(0,0)`
entry over an otherwise zero matrix. -/
theorem canon_V (p : OscPars) :
    (canon p).V = Matrix.of fun i j => if i = 0 ∧ j = 0 then (Vval p : ℂ) else 0 := by
  show (Matrix.of fun i j => if i = 0 ∧ j = 0 then (Vval p : ℂ) else (0 : Mat3) i j) = _
  ext i j
  by_cases h : i = 0 ∧ j = 0 <;> simp [h]

/-- The cast of the conversion constant to the complex numbers. -/
theorem conv_complex : ((conv : ℝ) : ℂ) = (2.534 : ℂ) := by norm_num [conv]

/-- The code's vacuum propagator agrees with the claim's diagonal matrix
of phases `exp(−i · H_kk · 2.534 · baseline / energy)`. -/
theorem Dvac_eq_spec (p : OscPars) :
    Dvac p = Matrix.diagonal (fun j =>
      Complex.exp (-Complex.I * (HdiagSpec p j : ℂ) * 2.534 * (p.L : ℂ) / (p.E : ℂ))) := by
  unfold Dvac
  refine congrArg Matrix.diagonal (funext fun j => ?_)
  rw [Hmat_diag p j]
  congr 1
  rw [conv_complex]
  ring

/-- The matrix that `transmat` builds from `H` and exponentiates on the
diagonal equals the claim's per-segment vacuum propagator. -/
theorem transmat_hexp_eq (p : OscPars) :
    (Matrix.of fun i j =>
        if i = j then
          Complex.exp
            (-Complex.I * Hmat p i j / (p.E : ℂ) * (conv : ℂ) * (p.L : ℂ) / ((128 : ℕ) : ℂ))
        else -Complex.I * Hmat p i j / (p.E : ℂ) * (conv : ℂ) * (p.L : ℂ) / ((128 : ℕ) : ℂ)) =
      Matrix.diagonal (fun j =>
        Complex.exp
          (-Complex.I * (HdiagSpec p j : ℂ) * 2.534 * ((p.L : ℂ) / 128) / (p.E : ℂ))) := by
  ext i j
  by_cases hij : i = j
  · subst hij
    simp only [Matrix.of_apply, if_pos rfl, Matrix.diagonal_apply_eq]
    congr 1
    rw [Hmat_diag p, conv_complex]
    push_cast
    ring
  · simp [Matrix.of_apply, hij, Matrix.diagonal_apply_ne _ hij, Hmat_offdiag p hij]

/-- The matrix that `transmat` builds from the canonical `V` and
exponentiates on the diagonal equals the claim's per-segment matter
propagator. -/
theorem transmat_vexp_eq (p : OscPars) :
    (Matrix.of fun i j =>
        if i = j then
          Complex.exp (-Complex.I * (canon p).V i j * (p.L : ℂ) / ((128 : ℕ) : ℂ))
        else -Complex.I * (canon p).V i j * (p.L : ℂ) / ((128 : ℕ) : ℂ)) =
      Matrix.diagonal (fun j =>
        Complex.exp (-Complex.I * (VdiagSpec p j : ℂ) * ((p.L : ℂ) / 128))) := by
  rw [canon_V]
  ext i j
  by_cases hij : i = j
  · subst hij
    simp only [Matrix.of_apply, if_pos rfl, Matrix.diagonal_apply_eq]
    congr 1
    fin_cases i <;>
      simp [VdiagSpec, Matrix.vecHead, Matrix.vecTail] <;>
      push_cast <;>
      ring
  · have h0 : ¬(i = 0 ∧ j = 0) := fun hc => hij (hc.1.trans hc.2.symm)
    simp [Matrix.of_apply, hij, Matrix.diagonal_apply_ne _ hij, h0]

/-- On the canonical state of any parameter set, `transmat` computes
exactly the claim's formula. -/
theorem transmat_canon (p : OscPars) : (canon p).transmat = transmatSpec p := by
  show (canon p).transmat = _
  simp only [Osc.transmat, canon_op, canon_U, canon_Ud, canon_H, Matrix.of_apply]
  rw [transmat_hexp_eq, transmat_vexp_eq]
  rfl

/-- After an `update()`, `transvac` computes exactly the claim's vacuum
formula. -/
theorem transvac_update_spec (o : Osc) : (update o).transvac = transvacSpec o.op := by
  rw [transvac_update, Dvac_eq_spec]
  rfl

/-- The vacuum probabilities after an `update()` sum to one. -/
theorem transvac_sum_one (o : Osc) : ∑ k, (update o).transvac k = 1 := by
  have h1 : ∑ k, (update o).transvac k = ∑ k, Complex.normSq (flavorVec o.op.nu k) := by
    rw [transvac_update]
    exact sum_normSq_mulVec _
      (sandwich_unitary _ _ (Umat_mul_conjTranspose o.op) (Dvac_unitary o.op)) _
  rw [h1, sum_normSq_flavorVec]

/-- Unfolding lemma for the iterate list. -/
theorem iterList_succ {α : Type} (f : α → α) (a : α) (n : ℕ) :
    iterList f a (n + 1) = a :: iterList f (f a) n := rfl

/-- Reading the swept field right after writing it returns the written
value. -/
theorem Param.get_set (p : Param) (v : ℝ) (q : OscPars) : p.get (p.set v q) = v := by
  cases p <;> rfl

/-- Overwriting the swept field twice keeps only the second write. -/
theorem Param.set_set (p : Param) (a b : ℝ) (q : OscPars) :
    p.set b (p.set a q) = p.set b q := by
  cases p <;> rfl

/-- `update()` only reads the parameter struct and the off-corner
entries of `V`; states agreeing there update to the same state. -/
theorem update_congr {a b : Osc} (hop : a.op = b.op)
    (hV : ∀ i j, ¬(i = 0 ∧ j = 0) → a.V i j = b.V i j) : update a = update b := by
  simp only [update, Osc.mk.injEq]
  refine ⟨hop, by rw [hop], by rw [hop], by rw [hop], ?_⟩
  ext i j
  simp only [Matrix.of_apply]
  by_cases h : i = 0 ∧ j = 0
  · simp [h, hop]
  · simp only [if_neg h]
    exact hV i j h

/-- The samples collected by the sweep loop: entry `j` is the dispatched
probability vector of the engine updated from the original state with
the swept field set to `j*step`. -/
theorem oscillateAux_fst (p : Param) (st : ℝ) (o : Osc) :
    ∀ (c : ℕ) (s : Osc) (i : ℕ),
      (∀ x, p.set x s.op = p.set x o.op) →
      (∀ a b, ¬(a = 0 ∧ b = 0) → s.V a b = o.V a b) →
      (oscillateAux p st s i c).1 =
        (List.range' i c).map
          (fun j : ℕ => (update { o with op := p.set ((j : ℝ) * st) o.op }).trans) := by
  intro c
  induction c with
  | zero => intro s i _ _; rfl
  | succ c ih =>
    intro s i h1 h2
    have hs' : update { s with op := p.set ((i : ℝ) * st) s.op } =
        update { o with op := p.set ((i : ℝ) * st) o.op } :=
      update_congr (h1 _) h2
    show (update { s with op := p.set ((i : ℝ) * st) s.op }).trans ::
        (oscillateAux p st (update { s with op := p.set ((i : ℝ) * st) s.op }) (i + 1) c).1 =
      _
    rw [List.range'_succ, List.map_cons]
    refine congrArg₂ List.cons (by rw [hs']) ?_
    apply ih
    · intro x
      show p.set x (p.set ((i : ℝ) * st) s.op) = _
      rw [Param.set_set]
      exact h1 x
    · intro a b hab
      show (Matrix.of fun a b =>
          if a = 0 ∧ b = 0 then (Vval (p.set ((i : ℝ) * st) s.op) : ℂ) else s.V a b) a b = _
      simp only [Matrix.of_apply, if_neg hab]
      exact h2 a b hab

/-- Filtering with a total function is mapping. -/
theorem filterMap_total_eq_map {α β : Type} (f : α → β) (l : List α) :
    l.filterMap (fun a => some (f a)) = l.map f := by
  induction l with
  | nil => rfl
  | cons a t ih => simp [List.filterMap_cons, ih]

/-- The `x` column of the written file is the index column scaled by
`final / count`. -/
theorem xColumn_exportData (probs : List (Fin 3 → ℝ)) (final : ℝ) :
    xColumn (exportData probs final) =
      probs.enum.map (fun ip => (ip.1 : ℝ) * (final / (probs.length : ℝ))) := by
  show List.filterMap _ (Row.header :: _) = _
  rw [List.filterMap_cons]
  simp only []
  rw [List.filterMap_map]
  exact filterMap_total_eq_map _ _

/-- Multiples of a nonnegative scalar by increasing enumeration indices
form a non-decreasing chain. -/
theorem chain_enumFrom_mul {α : Type} (c : ℝ) (hc : 0 ≤ c) (l : List α) :
    ∀ n : ℕ, List.Chain' (· ≤ ·) ((l.enumFrom n).map (fun ip => (ip.1 : ℝ) * c)) := by
  induction l with
  | nil => intro n; simp
  | cons a t ih =>
    intro n
    cases t with
    | nil => simp
    | cons b t' =>
      show List.Chain' (· ≤ ·)
        ((n : ℝ) * c :: ((n + 1 : ℕ) : ℝ) * c ::
          ((t'.enumFrom (n + 2)).map (fun ip => (ip.1 : ℝ) * c)))
      rw [List.chain'_cons]
      constructor
      · have hn : (n : ℝ) ≤ ((n + 1 : ℕ) : ℝ) := by exact_mod_cast Nat.le_succ n
        exact mul_le_mul_of_nonneg_right hn hc
      · exact ih (n + 1)

/-- C1: for every parameter set with `matterDensity = 0`, `transvac()`
returns the component-wise squared magnitude of `U · D · U† · e_f`,
where `D` is the diagonal matrix with entries
`exp(−i · H_kk · 2.534 · baseline / energy)`. -/
theorem claim_C1 (o : Osc) (hrho : o.op.rho = 0) :
    (update o).transvac = transvacSpec o.op :=
  transvac_update_spec o

/-- Witness for C1 at the default parameter set. -/
theorem claim_C1_witness :
    ({} : OscPars).rho = 0 ∧
      (update (Osc.mk {} 0 0 0 0)).transvac = transvacSpec {} :=
  ⟨rfl, claim_C1 (Osc.mk {} 0 0 0 0) rfl⟩

/-- C2: for every parameter set, `transmat()` returns the component-wise
squared magnitude of `U · A^128 · U† · e_f` with
`A = Hexp · U† · Vexp · U`, `Hexp` the diagonal per-segment vacuum
propagator and `Vexp` the diagonal per-segment matter propagator; the
segment count `128` is fixed. -/
theorem claim_C2 (o : Osc) (h : Reach o) : o.transmat = transmatSpec o.op := by
  rw [reach_canon h]
  exact transmat_canon o.op

/-- Witness for C2 at the constructor state. -/
theorem claim_C2_witness : ctor.transmat = transmatSpec ctor.op :=
  claim_C2 ctor Reach.init

/-- C3: `trans()` returns exactly `transmat()` when `matterDensity ≠ 0`
and exactly `transvac()` when `matterDensity = 0`. -/
theorem claim_C3 (o : Osc) :
    (o.op.rho ≠ 0 → o.trans = o.transmat) ∧ (o.op.rho = 0 → o.trans = o.transvac) := by
  constructor
  · intro h
    unfold Osc.trans
    rw [if_neg h]
  · intro h
    unfold Osc.trans
    rw [if_pos h]

/-- Witness for C3 at a vacuum and a matter parameter set. -/
theorem claim_C3_witness :
    ctor.trans = ctor.transvac ∧
      (Osc.mk { rho := 1 } 0 0 0 0).trans = (Osc.mk { rho := 1 } 0 0 0 0).transmat :=
  ⟨(claim_C3 ctor).2 rfl, (claim_C3 (Osc.mk { rho := 1 } 0 0 0 0)).1 one_ne_zero⟩

/-- C4: after every call to `update()`, the matter generator `V` is
nonzero only at its `(0,0)` entry, which holds the chirality sign times
`√2` times the reduced Fermi constant times the electron number density,
converted to inverse kilometres (the value `Vval`). -/
theorem claim_C4 (o : Osc) (h : Reach o) :
    o.V 0 0 = ((Vval o.op : ℝ) : ℂ) ∧ ∀ i j, ¬(i = 0 ∧ j = 0) → o.V i j = 0 := by
  have hc := reach_canon h
  constructor
  · rw [hc, canon_V]
    simp [canon_op]
  · intro i j hij
    rw [hc, canon_V]
    simp [hij]

/-- Witness for C4 at the constructor state. -/
theorem claim_C4_witness :
    ctor.V 0 0 = ((Vval ctor.op : ℝ) : ℂ) ∧ ctor.V 1 2 = 0 :=
  ⟨(claim_C4 ctor Reach.init).1, (claim_C4 ctor Reach.init).2 1 2 (by decide)⟩

/-- C5: for every parameter set with nonzero energy, the three vacuum
probabilities returned by `transvac()` sum exactly to one over exact
real arithmetic. -/
theorem claim_C5 (o : Osc) (hE : o.op.E ≠ 0) : ∑ k, (update o).transvac k = 1 :=
  transvac_sum_one o

/-- Witness for C5 at unit energy. -/
theorem claim_C5_witness :
    ({ E := 1 } : OscPars).E ≠ 0 ∧
      ∑ k, (update (Osc.mk { E := 1 } 0 0 0 0)).transvac k = 1 :=
  ⟨one_ne_zero, claim_C5 (Osc.mk { E := 1 } 0 0 0 0) one_ne_zero⟩

/-- C6: with `baseline = 0` and `matterDensity = 0` the probability
query returns `1` at the initial flavor and `0` elsewhere, for any
mixing parameters. -/
theorem claim_C6 (o : Osc) (hL : o.op.L = 0) (hrho : o.op.rho = 0) (k : Fin 3) :
    (update o).trans k = if k = o.op.nu then 1 else 0 := by
  have hdisp : (update o).trans = (update o).transvac := by
    have hrho' : (update o).op.rho = 0 := hrho
    unfold Osc.trans
    rw [if_pos hrho']
  rw [hdisp, transvac_update]
  have hD : Dvac o.op = 1 := by
    unfold Dvac
    rw [← Matrix.diagonal_one]
    exact congrArg Matrix.diagonal (funext fun j => by simp [hL])
  rw [hD, Matrix.mul_one, Umat_mul_conjTranspose, Matrix.one_mulVec]
  by_cases hk : k = o.op.nu <;> simp [flavorVec, hk]

/-- Witness for C6 at zero baseline. -/
theorem claim_C6_witness : (update (Osc.mk { L := 0 } 0 0 0 0)).trans 0 = 1 := by
  have h := claim_C6 (Osc.mk { L := 0 } 0 0 0 0) rfl rfl 0
  simpa using h

/-- C7: `numtrans` is independent of `matterDensity` — two updated
engines whose parameter sets agree on every field except `rho` return
identical sample sequences for the same arguments. -/
theorem claim_C7 (o1 o2 : Osc) (h : agreeExceptRho o1.op o2.op)
    (nu1 : Fin 3) (E L step : ℝ) :
    (update o1).numtrans nu1 E L step = (update o2).numtrans nu1 E L step := by
  obtain ⟨hnu, hanti, hE, hL, h12, h23, h13, h21, h31, hCP⟩ := h
  have hU : Umat o1.op = Umat o2.op := by
    unfold Umat U1 U2 U3
    rw [h12, h23, h13, hanti, hCP]
  have hH : Hmat o1.op = Hmat o2.op := by
    unfold Hmat
    rw [h21, h31]
  simp only [Osc.numtrans, update]
  rw [hU, hH]

/-- Witness for C7: engines differing only in the matter density. -/
theorem claim_C7_witness :
    agreeExceptRho ({} : OscPars) { rho := 1 } ∧
      (update (Osc.mk {} 0 0 0 0)).numtrans 0 1 1 1 =
        (update (Osc.mk { rho := 1 } 0 0 0 0)).numtrans 0 1 1 1 :=
  ⟨⟨rfl, rfl, rfl, rfl, rfl, rfl, rfl, rfl, rfl, rfl⟩,
    claim_C7 (Osc.mk {} 0 0 0 0) (Osc.mk { rho := 1 } 0 0 0 0)
      ⟨rfl, rfl, rfl, rfl, rfl, rfl, rfl, rfl, rfl, rfl⟩ 0 1 1 1⟩

/-- C8: `oscillate(osc, par, n)` returns exactly `n` probability
vectors, entry `i` being the dispatched probability vector after the
swept parameter is set to `i · (v/n)` and `update()` runs, and the swept
parameter is restored to its original value `v` afterwards. -/
theorem claim_C8 (o : Osc) (p : Param) (n : ℕ) (hn : 0 < n) :
    (oscillate o p n).1 =
      (List.range n).map (fun i : ℕ =>
        (update { o with op := p.set ((i : ℝ) * (p.get o.op / (n : ℝ))) o.op }).trans) ∧
    (oscillate o p n).1.length = n ∧
    p.get (oscillate o p n).2.op = p.get o.op := by
  have hfst : (oscillate o p n).1 =
      (List.range n).map (fun i : ℕ =>
        (update { o with op := p.set ((i : ℝ) * (p.get o.op / (n : ℝ))) o.op }).trans) := by
    show (oscillateAux p (p.get o.op / (n : ℝ)) o 0 n).1 = _
    rw [oscillateAux_fst p (p.get o.op / (n : ℝ)) o n o 0 (fun x => rfl) (fun a b _ => rfl),
      List.range_eq_range']
  refine ⟨hfst, ?_, ?_⟩
  · rw [hfst]
    simp
  · show p.get (p.set (p.get o.op) (oscillateAux p (p.get o.op / (n : ℝ)) o 0 n).2.op) = _
    rw [Param.get_set]

/-- Witness for C8: a two-step energy sweep from the constructor
state. -/
theorem claim_C8_witness :
    0 < 2 ∧ (oscillate (Osc.mk {} 0 0 0 0) Param.energy 2).1.length = 2 :=
  ⟨by decide, (claim_C8 (Osc.mk {} 0 0 0 0) Param.energy 2 (by decide)).2.1⟩

/-- C9 counterexample: with a negative final value the `x` column of
the written file is decreasing, refuting the claim's unconditional
monotonicity. -/
theorem claim_C9_counterexample :
    ¬ List.Chain' (· ≤ ·)
      (xColumn (exportData [fun _ => (0 : ℝ), fun _ => (0 : ℝ)] (-1))) := by
  rw [xColumn_exportData]
  intro h
  rw [show (([fun _ => (0 : ℝ), fun _ => (0 : ℝ)] : List (Fin 3 → ℝ)).enum) =
      [(0, fun _ => (0 : ℝ)), (1, fun _ => (0 : ℝ))] from rfl] at h
  simp only [List.map_cons, List.map_nil, List.chain'_cons] at h
  have hle := h.1
  norm_num at hle

/-- C9 amended: `exportData` writes the header followed by exactly one
data line per vector, line `i` holding `x = i·(final/N)` and the three
components of vector `i`; the `x` column is monotonically non-decreasing
whenever the final value is nonnegative. -/
theorem claim_C9_amended (probs : List (Fin 3 → ℝ)) (final : ℝ) :
    (exportData probs final).length = probs.length + 1 ∧
    (exportData probs final).head? = some Row.header ∧
    (∀ i (h : i < probs.length),
      (exportData probs final)[i + 1]? =
        some (Row.data ((i : ℝ) * (final / (probs.length : ℝ)))
          (probs.get ⟨i, h⟩ 0) (probs.get ⟨i, h⟩ 1) (probs.get ⟨i, h⟩ 2))) ∧
    (0 ≤ final → List.Chain' (· ≤ ·) (xColumn (exportData probs final))) := by
  refine ⟨?_, rfl, ?_, ?_⟩
  · simp [exportData]
  · intro i h
    show (Row.header :: _)[i + 1]? = _
    rw [List.getElem?_cons_succ, List.getElem?_map, List.getElem?_enum,
      List.getElem?_eq_getElem h]
    rfl
  · intro hf
    rw [xColumn_exportData]
    exact chain_enumFrom_mul (final / (probs.length : ℝ))
      (div_nonneg hf (Nat.cast_nonneg _)) probs 0

/-- Witness for C9 amended: a singleton sequence with nonnegative final
value. -/
theorem claim_C9_amended_witness :
    (0 : ℝ) ≤ 1 ∧ List.Chain' (· ≤ ·) (xColumn (exportData [fun _ => (0 : ℝ)] 1)) :=
  ⟨zero_le_one, (claim_C9_amended [fun _ => (0 : ℝ)] 1).2.2.2 zero_le_one⟩

/-- C10: the first element of the sequence returned by `numtrans` is the
probability vector with `1` at the initial flavor index, because the
first sample is recorded before any Euler step and `U · U† = 1`. -/
theorem claim_C10 (o : Osc) (nu1 : Fin 3) (E L step : ℝ) :
    ((update o).numtrans nu1 E L step).head? =
      some (fun k => if k = nu1 then (1 : ℝ) else 0) := by
  simp only [Osc.numtrans, update]
  rw [iterList_succ, List.map_cons, List.head?_cons]
  have hid : (Umat o.op).mulVec ((Umat o.op)ᴴ.mulVec (flavorVec nu1)) = flavorVec nu1 := by
    rw [Matrix.mulVec_mulVec, Umat_mul_conjTranspose, Matrix.one_mulVec]
  rw [hid]
  refine congrArg some (funext fun k => ?_)
  by_cases hk : k = nu1 <;> simp [flavorVec, hk]

end NeutOsc
